import Mathlib

/-!
Verification of the Model Serving Cache design specified for the
multi-model-endpoint repository.  The repository itself contains only a
notebook that invokes the managed serving service; the spec describes
the cache/eviction engine (Dispatcher, Memory Pool, Local Disk Cache,
Remote Store client) in prose.  The definitions below are therefore a
shallow embedding of that design, modelled from the spec; the
name-derivation definitions near the end are transcribed from the
notebook cells that create and delete cloud resources.  Definitions come
first, followed by all theorems.
-/

/-! ## Memory Pool (spec section 4.2) -/

/-- Artifact identity: a free-form string naming a packaged model
(in the source material, a filename-like token such as
"bertmodel.tar.gz"). -/
abbrev Identity := String

/-- Modelled from the spec: one resident LoadedModel of the In-Memory
Model Pool, keyed by artifact identity, with its memory footprint and a
last-access recency marker (a logical timestamp). -/
structure PoolEntry where
  identity : Identity
  footprint : Nat
  lastAccess : Nat
deriving Repr, DecidableEq

/-- Modelled from the spec: the In-Memory Model Pool state — a mapping
from artifact identity to LoadedModel plus a recency marker per entry,
under a configured memory budget.  The logical clock supplies fresh
recency markers. -/
structure MemoryPool where
  budget : Nat
  clock : Nat
  entries : List PoolEntry
deriving Repr, DecidableEq

/-- Eviction priority order: least-recently-used first, recency ties
broken by the identity's lexical order (spec section 4.2). -/
def lruEntryLE (e f : PoolEntry) : Prop :=
  e.lastAccess < f.lastAccess ∨ (e.lastAccess = f.lastAccess ∧ e.identity ≤ f.identity)

instance : DecidableRel lruEntryLE := fun e f => by
  unfold lruEntryLE; infer_instance

instance : IsTotal PoolEntry lruEntryLE := by
  constructor
  intro e f
  rcases Nat.lt_trichotomy e.lastAccess f.lastAccess with h | h | h
  · exact Or.inl (Or.inl h)
  · rcases le_total e.identity f.identity with h2 | h2
    · exact Or.inl (Or.inr ⟨h, h2⟩)
    · exact Or.inr (Or.inr ⟨h.symm, h2⟩)
  · exact Or.inr (Or.inl h)

instance : IsTrans PoolEntry lruEntryLE := by
  constructor
  intro a b c hab hbc
  rcases hab with h1 | ⟨h1, h1i⟩ <;> rcases hbc with h2 | ⟨h2, h2i⟩
  · exact Or.inl (h1.trans h2)
  · exact Or.inl (h2 ▸ h1)
  · exact Or.inl (h1 ▸ h2)
  · exact Or.inr ⟨h1.trans h2, h1i.trans h2i⟩

/-- Total memory footprint of a list of pool entries. -/
def entriesSize (es : List PoolEntry) : Nat :=
  (es.map (·.footprint)).sum

/-- Aggregate resident size of the Memory Pool. -/
def poolSize (p : MemoryPool) : Nat :=
  entriesSize p.entries

/-- Whether an identity is currently resident in the pool. -/
def poolHas (p : MemoryPool) (id : Identity) : Bool :=
  (p.entries.find? (fun e => e.identity == id)).isSome

/-- The identities of all resident LoadedModels. -/
def residentIds (p : MemoryPool) : List Identity :=
  p.entries.map (·.identity)

/-- The empty pool under a given memory budget. -/
def emptyPool (budget : Nat) : MemoryPool :=
  { budget := budget, clock := 0, entries := [] }

/-- Modelled from the spec: the eviction loop of admit.  The input list
is assumed sorted least-recently-used first (ties by lexical identity
order); entries are evicted from the front until admitting a new entry
of footprint `fp` would no longer exceed the budget, or the pool is
empty.  Returns (evicted, survivors). -/
def evictLoop (budget fp : Nat) : List PoolEntry → List PoolEntry × List PoolEntry
  | [] => ([], [])
  | e :: es =>
    if entriesSize (e :: es) + fp ≤ budget then ([], e :: es)
    else
      let r := evictLoop budget fp es
      (e :: r.1, r.2)

/-- Result of admitting an identity into the Memory Pool: either the
"model too large" failure, or the updated pool together with the list of
evicted identities. -/
inductive AdmitResult
  | tooLarge
  | ok (p : MemoryPool) (evicted : List Identity)
deriving Repr, DecidableEq

/-- Modelled from the spec: `admit(identity, bytes)` of the Memory Pool.
If the single new entry's footprint alone exceeds the budget, fail with
a "model too large" error rather than evicting everything.  Otherwise
evict least-recently-used entries (ties broken by identity's lexical
order) until the invariant holds or the pool is empty, then insert the
new LoadedModel with a fresh recency marker. -/
def MemoryPool.admission (p : MemoryPool) (id : Identity) (fp : Nat) : AdmitResult :=
  if p.budget < fp then .tooLarge
  else
    let others := p.entries.filter (fun e => ¬ (e.identity == id))
    let sorted := others.insertionSort lruEntryLE
    let r := evictLoop p.budget fp sorted
    .ok { budget := p.budget
          clock := p.clock + 1
          entries := { identity := id, footprint := fp, lastAccess := p.clock } :: r.2 }
        (r.1.map (·.identity))

/-- Modelled from the spec: `touch(identity)` — update the recency
marker on every hit. -/
def MemoryPool.touch (p : MemoryPool) (id : Identity) : MemoryPool :=
  { p with
    clock := p.clock + 1
    entries := p.entries.map
      (fun e => if e.identity == id then { e with lastAccess := p.clock } else e) }

/-- Modelled from the spec: `evict(identity)` — explicit removal, used
for manual invalidation. -/
def MemoryPool.evict (p : MemoryPool) (id : Identity) : MemoryPool :=
  { p with entries := p.entries.filter (fun e => ¬ (e.identity == id)) }

/-- A Memory Pool operation, for reasoning about arbitrary operation
sequences. -/
inductive PoolOp
  | admission (id : Identity) (fp : Nat)
  | touch (id : Identity)
  | evict (id : Identity)
deriving Repr, DecidableEq

/-- Apply one pool operation; a failed admission leaves the pool
unchanged. -/
def applyPoolOp (p : MemoryPool) : PoolOp → MemoryPool
  | .admission id fp =>
    match p.admission id fp with
    | .ok p2 _ => p2
    | .tooLarge => p
  | .touch id => p.touch id
  | .evict id => p.evict id

/-- Run a sequence of Memory Pool operations from the empty pool. -/
def runPool (budget : Nat) (ops : List PoolOp) : MemoryPool :=
  ops.foldl applyPoolOp (emptyPool budget)

/-! ## Local Disk Cache (spec section 4.3) -/

/-- Modelled from the spec: a DiskEntry — a local copy of a
ModelArtifact's bytes, keyed by artifact identity, with its size on disk
and a recency marker. -/
structure DiskEntry where
  identity : Identity
  size : Nat
  lastAccess : Nat
deriving Repr, DecidableEq

/-- Modelled from the spec: the Local Disk Cache state — a mapping from
artifact identity to DiskEntry with total occupied size bounded by a
configured disk budget. -/
structure DiskCache where
  budget : Nat
  clock : Nat
  entries : List DiskEntry
deriving Repr, DecidableEq

/-- Reclamation priority order on disk entries: least-recently-used
first, ties by the identity's lexical order. -/
def lruDiskLE (e f : DiskEntry) : Prop :=
  e.lastAccess < f.lastAccess ∨ (e.lastAccess = f.lastAccess ∧ e.identity ≤ f.identity)

instance : DecidableRel lruDiskLE := fun e f => by
  unfold lruDiskLE; infer_instance

/-- Total size of a list of disk entries. -/
def diskEntriesSize (es : List DiskEntry) : Nat :=
  (es.map (·.size)).sum

/-- Aggregate occupied size of the Disk Cache. -/
def diskSize (c : DiskCache) : Nat :=
  diskEntriesSize c.entries

/-- Look up the DiskEntry for an identity. -/
def diskLookup (c : DiskCache) (id : Identity) : Option DiskEntry :=
  c.entries.find? (fun e => e.identity == id)

/-- Whether an identity has a DiskEntry. -/
def diskHas (c : DiskCache) (id : Identity) : Bool :=
  (diskLookup c id).isSome

/-- The empty disk cache under a given disk budget. -/
def emptyDisk (budget : Nat) : DiskCache :=
  { budget := budget, clock := 0, entries := [] }

/-- Modelled from the spec: the reclamation walk of `reclaim`.  The
input list is assumed sorted least-recently-used first; entries not
currently backing a resident LoadedModel (identity not in `pinned`) are
removed from the front until writing `need` more bytes would no longer
exceed the budget; entries backing a LoadedModel are never removed.
`keptSize` accumulates the size of pinned entries already kept. -/
def reclaimLoop (budget need : Nat) (pinned : List Identity) :
    Nat → List DiskEntry → List DiskEntry
  | _, [] => []
  | keptSize, e :: es =>
    if keptSize + diskEntriesSize (e :: es) + need ≤ budget then e :: es
    else if pinned.contains e.identity then
      e :: reclaimLoop budget need pinned (keptSize + e.size) es
    else
      reclaimLoop budget need pinned keptSize es

/-- Modelled from the spec: `reclaim(requiredBytes)` — remove
least-recently-used DiskEntries not currently backing a LoadedModel
until enough space is free; a DiskEntry currently backing a resident
LoadedModel must not be reclaimed. -/
def DiskCache.reclaim (c : DiskCache) (pinned : List Identity) (need : Nat) : DiskCache :=
  { c with entries := reclaimLoop c.budget need pinned 0 (c.entries.insertionSort lruDiskLE) }

/-- Register a freshly fetched DiskEntry with a fresh recency marker. -/
def diskWrite (c : DiskCache) (id : Identity) (sz : Nat) : DiskCache :=
  { c with
    clock := c.clock + 1
    entries := { identity := id, size := sz, lastAccess := c.clock } ::
      c.entries.filter (fun e => ¬ (e.identity == id)) }

/-- Update the recency marker of an identity's DiskEntry. -/
def diskTouch (c : DiskCache) (id : Identity) : DiskCache :=
  { c with
    clock := c.clock + 1
    entries := c.entries.map
      (fun e => if e.identity == id then { e with lastAccess := c.clock } else e) }

/-- A Disk Cache operation, for reasoning about arbitrary operation
sequences.  `fetchOrGet` carries the size the Remote Store reports for
the artifact and the identities pinned by resident LoadedModels;
`reclaimPressure` is an explicit reclamation under storage pressure. -/
inductive DiskOp
  | fetchOrGet (id : Identity) (sz : Nat) (pinned : List Identity)
  | reclaimPressure (need : Nat) (pinned : List Identity)
deriving Repr, DecidableEq

/-- Modelled from the spec: `fetchOrGet(identity)` on the Disk Cache
alone.  A disk hit refreshes recency; on a miss, reclamation must
restore the budget invariant before the new DiskEntry is written, and if
even reclamation cannot make room the entry is not registered. -/
def applyDiskOp (c : DiskCache) : DiskOp → DiskCache
  | .fetchOrGet id sz pinned =>
    if diskHas c id then diskTouch c id
    else
      let c1 := c.reclaim pinned sz
      if diskSize c1 + sz ≤ c1.budget then diskWrite c1 id sz else c1
  | .reclaimPressure need pinned => c.reclaim pinned need

/-- Run a sequence of Disk Cache operations from the empty cache. -/
def runDisk (budget : Nat) (ops : List DiskOp) : DiskCache :=
  ops.foldl applyDiskOp (emptyDisk budget)

/-! ## Dispatcher and serving instance (spec sections 4.1 and 4.4) -/

/-- Modelled from the spec: the Remote Model Store as consumed by the
serving core — a durable, immutable map from artifact identity to the
artifact's size.  `get` either finds the identity or fails NotFound. -/
abbrev RemoteStore := List (Identity × Nat)

/-- The Remote Store client's `get(identity)`: the artifact's size, or
none for NotFound. -/
def remoteLookup (r : RemoteStore) (id : Identity) : Option Nat :=
  (r.find? (fun kv => kv.1 == id)).map (·.2)

/-- Modelled from the spec's error taxonomy: request-scoped serving
errors surfaced to the caller. -/
inductive ServeError
  | modelNotFound
  | modelTooLarge
  | diskFull
deriving Repr, DecidableEq

/-- The dispatcher's answer to one request: the identity executed, or a
surfaced error. -/
inductive Response
  | executed (id : Identity)
  | failed (e : ServeError)
deriving Repr, DecidableEq

/-- One serving Instance: a Memory Pool, a Local Disk Cache and the
(read-only) Remote Store. -/
structure ServeState where
  pool : MemoryPool
  disk : DiskCache
  remote : RemoteStore
deriving Repr, DecidableEq

/-- Outcome of handling one request: the successor state, the response,
and how many fetch attempts were issued to the Remote Store. -/
structure HandleResult where
  state : ServeState
  response : Response
  remoteFetches : Nat
deriving Repr, DecidableEq

/-- Load a disk-staged artifact into the Memory Pool, then execute
(spec section 4.2 called from section 4.1 step 2). -/
def loadIntoPool (s : ServeState) (id : Identity) (sz : Nat) (fetches : Nat) : HandleResult :=
  match s.pool.admission id sz with
  | .tooLarge => ⟨s, .failed .modelTooLarge, fetches⟩
  | .ok p2 _ => ⟨{ s with pool := p2 }, .executed id, fetches⟩

/-- Modelled from the spec: `handle(requestId, targetModel, payload)` of
the Dispatcher.  Pool hit: touch and execute, no disk or network access.
Pool miss with disk hit: load into the pool from disk.  Full miss: fetch
from the Remote Store (NotFound is surfaced immediately), reclaim disk
space pinning all resident LoadedModels, write the new DiskEntry, then
load into the pool. -/
def handle (s : ServeState) (target : Identity) : HandleResult :=
  if poolHas s.pool target then
    ⟨{ s with pool := s.pool.touch target }, .executed target, 0⟩
  else
    match diskLookup s.disk target with
    | some e => loadIntoPool { s with disk := diskTouch s.disk target } target e.size 0
    | none =>
      match remoteLookup s.remote target with
      | none => ⟨s, .failed .modelNotFound, 1⟩
      | some sz =>
        if diskSize (s.disk.reclaim (residentIds s.pool) sz) + sz ≤
            (s.disk.reclaim (residentIds s.pool) sz).budget then
          loadIntoPool
            { s with disk := diskWrite (s.disk.reclaim (residentIds s.pool) sz) target sz }
            target sz 1
        else
          ⟨{ s with disk := s.disk.reclaim (residentIds s.pool) sz }, .failed .diskFull, 1⟩

/-- A serving-instance operation: an inference request, a manual pool
eviction (invalidation), or disk reclamation under storage pressure
(which pins every identity backing a resident LoadedModel). -/
inductive ServeOp
  | request (target : Identity)
  | manualEvict (id : Identity)
  | storagePressure (need : Nat)
deriving Repr, DecidableEq

def applyServeOp (s : ServeState) : ServeOp → ServeState
  | .request t => (handle s t).state
  | .manualEvict id => { s with pool := s.pool.evict id }
  | .storagePressure need => { s with disk := s.disk.reclaim (residentIds s.pool) need }

/-- A fresh serving Instance: empty pool, empty disk cache, the given
Remote Store contents. -/
def initState (memBudget diskBudget : Nat) (remote : RemoteStore) : ServeState :=
  ⟨emptyPool memBudget, emptyDisk diskBudget, remote⟩

/-- Run a sequence of serving-instance operations from a fresh
Instance. -/
def runServe (memBudget diskBudget : Nat) (remote : RemoteStore) (ops : List ServeOp) :
    ServeState :=
  ops.foldl applyServeOp (initState memBudget diskBudget remote)

/-- Invariant: every resident LoadedModel is backed by a DiskEntry for
the same identity. -/
def backedInv (s : ServeState) : Prop :=
  ∀ e ∈ s.pool.entries, diskHas s.disk e.identity = true

/-- Invariant: every DiskEntry was fetched from the Remote Store, so its
identity is present there. -/
def diskFromRemote (s : ServeState) : Prop :=
  ∀ e ∈ s.disk.entries, ∃ sz, remoteLookup s.remote e.identity = some sz

/-- A concrete Disk Cache holding one 5-byte entry for "a". -/
def diskA5 : DiskCache :=
  { budget := 10, clock := 1, entries := [{ identity := "a", size := 5, lastAccess := 0 }] }

/-- A concrete state on the disk-hit path whose artifact exceeds the
memory budget. -/
def stateDiskHitA : ServeState :=
  { pool := emptyPool 1, disk := diskA5, remote := [] }

/-- A concrete state on the full-miss path whose artifact exceeds the
memory budget. -/
def stateFullMissA : ServeState :=
  { pool := emptyPool 1, disk := emptyDisk 10, remote := [("a", 5)] }

/-- A concrete pool with "a" resident. -/
def poolA1 : MemoryPool :=
  { budget := 3, clock := 2, entries := [{ identity := "a", footprint := 1, lastAccess := 0 }] }

/-- A concrete Disk Cache holding one 1-byte entry for "a". -/
def diskA1 : DiskCache :=
  { budget := 10, clock := 1, entries := [{ identity := "a", size := 1, lastAccess := 0 }] }

/-- A concrete state for disk-backed recovery of "a". -/
def stateRecoveryA : ServeState :=
  { pool := poolA1, disk := diskA1, remote := [("a", 1)] }

/-! ## Fetch coalescing (spec sections 4.3 and 5) -/

/-- Modelled from the spec: the per-instance fetch-coalescing registry.
`inFlight` holds the identities whose Remote Store fetch is currently in
progress, and `fetchesIssued` counts the fetches issued so far.
Concurrency is modelled by interleaving atomic arrival and completion
events. -/
structure FetchState where
  disk : List Identity
  inFlight : List Identity
  fetchesIssued : Nat
deriving Repr, DecidableEq

/-- Modelled from the spec: a request arrives for an identity.  A disk
hit needs no fetch; if a fetch for the identity is already in flight,
the request waits on that same fetch; otherwise the request issues the
single fetch and registers it as in flight. -/
def arrive (st : FetchState) (id : Identity) : FetchState :=
  if st.disk.contains id then st
  else if st.inFlight.contains id then st
  else { disk := st.disk, inFlight := id :: st.inFlight,
         fetchesIssued := st.fetchesIssued + 1 }

/-- Modelled from the spec: an in-flight fetch completes — the DiskEntry
is registered and all waiters are woken. -/
def completeFetch (st : FetchState) (id : Identity) : FetchState :=
  if st.inFlight.contains id then
    { disk := id :: st.disk, inFlight := st.inFlight.erase id,
      fetchesIssued := st.fetchesIssued }
  else st

/-- n concurrent requests for the same identity, arriving in any
interleaving before the shared fetch completes. -/
def arrivals (x : Identity) (st : FetchState) : Nat → FetchState
  | 0 => st
  | n + 1 => arrive (arrivals x st n) x

/-! ## Artifact naming and deployment resource names (from the notebook) -/

/-- From the notebook's packaging cells: an artifact is named by its
base name plus the ".tar.gz" archive suffix (e.g. "bertmodel.tar.gz"). -/
def baseArtifactName (base : String) : String := base ++ ".tar.gz"

/-- From the notebook's update guidance (cell-27): a retrained model is
uploaded under a version-suffixed name such as "bertmodel_v2.tar.gz"
instead of overwriting the original artifact. -/
def versionedArtifactName (base v : String) : String := base ++ "_v" ++ v ++ ".tar.gz"

/-- From the notebook's create cell: create_model is passed
deployment_name itself as ModelName. -/
def createModelName (deployment_name : String) : String := deployment_name

/-- From the notebook's create cell: create_endpoint_config is passed
deployment_name suffixed with "-epc" as EndpointConfigName. -/
def createEndpointConfigName (deployment_name : String) : String := deployment_name ++ "-epc"

/-- From the notebook's create cell: create_endpoint is passed
deployment_name suffixed with "-ep" as EndpointName. -/
def createEndpointName (deployment_name : String) : String := deployment_name ++ "-ep"

/-- From the notebook's teardown cell: delete_model is passed
deployment_name itself as ModelName. -/
def deleteModelName (deployment_name : String) : String := deployment_name

/-- From the notebook's teardown cell: delete_endpoint_config is passed
deployment_name suffixed with "-epc" as EndpointConfigName. -/
def deleteEndpointConfigName (deployment_name : String) : String := deployment_name ++ "-epc"

/-- From the notebook's teardown cell: delete_endpoint is passed
deployment_name suffixed with "-ep" as EndpointName. -/
def deleteEndpointName (deployment_name : String) : String := deployment_name ++ "-ep"

/-! ### Basic facts about the eviction loop -/

theorem evictLoop_append (budget fp : Nat) :
    ∀ l : List PoolEntry, (evictLoop budget fp l).1 ++ (evictLoop budget fp l).2 = l := by
  intro l
  induction l with
  | nil => simp [evictLoop]
  | cons e es ih =>
    by_cases h : entriesSize (e :: es) + fp ≤ budget
    · simp [evictLoop, h]
    · simp [evictLoop, h, ih]

theorem evictLoop_post (budget fp : Nat) :
    ∀ l : List PoolEntry,
      entriesSize (evictLoop budget fp l).2 + fp ≤ budget ∨ (evictLoop budget fp l).2 = [] := by
  intro l
  induction l with
  | nil => simp [evictLoop]
  | cons e es ih =>
    by_cases h : entriesSize (e :: es) + fp ≤ budget
    · simp only [evictLoop, if_pos h]
      exact Or.inl h
    · simp only [evictLoop, if_neg h]
      exact ih

theorem evictLoop_minimal (budget fp : Nat) :
    ∀ l : List PoolEntry, ∀ j, j < (evictLoop budget fp l).1.length →
      budget < entriesSize (l.drop j) + fp := by
  intro l
  induction l with
  | nil => simp [evictLoop]
  | cons e es ih =>
    intro j hj
    by_cases h : entriesSize (e :: es) + fp ≤ budget
    · simp [evictLoop, h] at hj
    · simp only [evictLoop, if_neg h, List.length_cons] at hj
      match j with
      | 0 => simpa using Nat.lt_of_not_le h
      | j + 1 =>
        simpa using ih j (Nat.lt_of_succ_lt_succ hj)

theorem evictLoop_mem_survivor (budget fp : Nat) (l : List PoolEntry) :
    ∀ e ∈ (evictLoop budget fp l).2, e ∈ l := by
  intro e he
  have h := evictLoop_append budget fp l
  rw [← h]
  exact List.mem_append_right _ he

theorem evictLoop_mem_evicted (budget fp : Nat) (l : List PoolEntry) :
    ∀ e ∈ (evictLoop budget fp l).1, e ∈ l := by
  intro e he
  have h := evictLoop_append budget fp l
  rw [← h]
  exact List.mem_append_left _ he

/-- When the input is sorted by the LRU-then-lexical order, every
evicted entry precedes every surviving entry in that order. -/
theorem evictLoop_order (budget fp : Nat) (l : List PoolEntry)
    (hs : List.Sorted lruEntryLE l) :
    ∀ e ∈ (evictLoop budget fp l).1, ∀ s ∈ (evictLoop budget fp l).2, lruEntryLE e s := by
  have happ := evictLoop_append budget fp l
  have hs2 : List.Sorted lruEntryLE ((evictLoop budget fp l).1 ++ (evictLoop budget fp l).2) := by
    rw [happ]; exact hs
  rw [List.Sorted, List.pairwise_append] at hs2
  exact hs2.2.2

/-- Summing a mapped weight over a filtered list never exceeds the sum
over the whole list. -/
theorem sumMap_filter_le {α : Type} (f : α → Nat) (p : α → Bool) :
    ∀ l : List α, ((l.filter p).map f).sum ≤ (l.map f).sum := by
  intro l
  induction l with
  | nil => simp
  | cons a l ih =>
    by_cases h : p a
    · simpa [h] using Nat.add_le_add_left ih (f a)
    · simp only [List.filter_cons, h]
      simp only [List.map_cons, List.sum_cons]
      exact ih.trans (Nat.le_add_left _ _)

theorem entriesSize_map_preserve (f : PoolEntry → PoolEntry)
    (hf : ∀ e, (f e).footprint = e.footprint) :
    ∀ l : List PoolEntry, entriesSize (l.map f) = entriesSize l := by
  intro l
  induction l with
  | nil => rfl
  | cons e es ih => simp [entriesSize, hf, ih, entriesSize] at ih ⊢; omega

theorem poolSize_touch (p : MemoryPool) (id : Identity) :
    poolSize (p.touch id) = poolSize p := by
  simp only [MemoryPool.touch, poolSize]
  exact entriesSize_map_preserve _ (fun e => by by_cases h : e.identity == id <;> simp [h]) _

theorem poolSize_evict_le (p : MemoryPool) (id : Identity) :
    poolSize (p.evict id) ≤ poolSize p := by
  simp only [MemoryPool.evict, poolSize, entriesSize]
  exact sumMap_filter_le _ _ _

/-- A successful admission leaves the pool within its memory budget and
preserves the configured budget. -/
theorem admission_ok_size (p : MemoryPool) (id : Identity) (fp : Nat)
    (p2 : MemoryPool) (ev : List Identity)
    (h : p.admission id fp = .ok p2 ev) :
    poolSize p2 ≤ p.budget ∧ p2.budget = p.budget := by
  unfold MemoryPool.admission at h
  by_cases hb : p.budget < fp
  · simp [hb] at h
  · simp only [if_neg hb] at h
    set sorted := (p.entries.filter (fun e => ¬ (e.identity == id))).insertionSort lruEntryLE
      with hsorted
    cases h
    constructor
    · rcases evictLoop_post p.budget fp sorted with h1 | h1
      · simpa [poolSize, entriesSize, Nat.add_comm] using h1
      · simp [poolSize, entriesSize, h1]
        omega
    · rfl

theorem applyPoolOp_budget (p : MemoryPool) (op : PoolOp) :
    (applyPoolOp p op).budget = p.budget := by
  cases op with
  | admission id fp =>
    simp only [applyPoolOp]
    cases h : p.admission id fp with
    | tooLarge => rfl
    | ok p2 ev => exact (admission_ok_size p id fp p2 ev h).2
  | touch id => rfl
  | evict id => rfl

theorem applyPoolOp_size (p : MemoryPool) (op : PoolOp)
    (h : poolSize p ≤ p.budget) :
    poolSize (applyPoolOp p op) ≤ p.budget := by
  cases op with
  | admission id fp =>
    simp only [applyPoolOp]
    cases hh : p.admission id fp with
    | tooLarge => exact h
    | ok p2 ev => exact (admission_ok_size p id fp p2 ev hh).1
  | touch id => simpa [applyPoolOp, poolSize_touch] using h
  | evict id => exact (poolSize_evict_le p id).trans h

theorem runPool_budget (budget : Nat) (ops : List PoolOp) :
    (runPool budget ops).budget = budget := by
  unfold runPool
  induction ops using List.reverseRecOn with
  | nil => rfl
  | append_singleton ops op ih =>
    rw [List.foldl_append, List.foldl_cons, List.foldl_nil, applyPoolOp_budget]
    exact ih

theorem runPool_size (budget : Nat) (ops : List PoolOp) :
    poolSize (runPool budget ops) ≤ budget := by
  induction ops using List.reverseRecOn with
  | nil => simp [runPool, emptyPool, poolSize, entriesSize]
  | append_singleton ops op ih =>
    have hb := runPool_budget budget ops
    have := applyPoolOp_size (runPool budget ops) op (by rw [hb]; exact ih)
    rw [hb] at this
    simpa [runPool, List.foldl_append] using this

/-- C1: For every sequence of Memory Pool operations (admit, touch,
evict) starting from the empty pool, the aggregate resident size is at
most the configured memory budget after each operation completes; and
whenever admit succeeds, the pool it produces (in which eviction ran
before the new LoadedModel was inserted) satisfies the budget
invariant. -/
theorem claim_C1 :
    (∀ (budget : Nat) (ops : List PoolOp), poolSize (runPool budget ops) ≤ budget) ∧
    (∀ (p : MemoryPool) (id : Identity) (fp : Nat) (p2 : MemoryPool) (ev : List Identity),
      p.admission id fp = AdmitResult.ok p2 ev → poolSize p2 ≤ p.budget) :=
  ⟨runPool_size, fun p id fp p2 ev h => (admission_ok_size p id fp p2 ev h).1⟩

/-- C1 witness: the pool invariant at a concrete operation sequence and
a concrete successful admission. -/
theorem claim_C1_witness :
    poolSize (runPool 10 [PoolOp.admission "a" 3, PoolOp.touch "a", PoolOp.admission "b" 9]) ≤ 10 ∧
    poolSize { budget := 10, clock := 1,
               entries := [{ identity := "a", footprint := 3, lastAccess := 0 }] } ≤ 10 :=
  ⟨claim_C1.1 10 _,
   claim_C1.2 (emptyPool 10) "a" 3
     { budget := 10, clock := 1,
       entries := [{ identity := "a", footprint := 3, lastAccess := 0 }] } []
     (by decide)⟩

/-! ### Disk Cache lemmas -/

theorem diskEntriesSize_map_preserve (f : DiskEntry → DiskEntry)
    (hf : ∀ e, (f e).size = e.size) :
    ∀ l : List DiskEntry, diskEntriesSize (l.map f) = diskEntriesSize l := by
  intro l
  induction l with
  | nil => rfl
  | cons e es ih => simp [diskEntriesSize] at ih ⊢; rw [hf, ih]

theorem diskSize_touch (c : DiskCache) (id : Identity) :
    diskSize (diskTouch c id) = diskSize c := by
  simp only [diskTouch, diskSize]
  exact diskEntriesSize_map_preserve _ (fun e => by by_cases h : e.identity == id <;> simp [h]) _

theorem reclaimLoop_size_le (budget need : Nat) (pinned : List Identity) :
    ∀ (l : List DiskEntry) (k : Nat),
      diskEntriesSize (reclaimLoop budget need pinned k l) ≤ diskEntriesSize l := by
  intro l
  induction l with
  | nil => intro k; simp [reclaimLoop]
  | cons e es ih =>
    intro k
    by_cases h1 : k + diskEntriesSize (e :: es) + need ≤ budget
    · simp [reclaimLoop, h1]
    · by_cases h2 : pinned.contains e.identity
      · simp only [reclaimLoop, if_neg h1, if_pos h2]
        simpa [diskEntriesSize] using ih (k + e.size)
      · simp only [reclaimLoop, if_neg h1, if_neg h2]
        exact (ih k).trans (by simp [diskEntriesSize])

theorem diskEntriesSize_perm {l1 l2 : List DiskEntry} (h : l1.Perm l2) :
    diskEntriesSize l1 = diskEntriesSize l2 := by
  simp only [diskEntriesSize]
  exact (h.map (·.size)).sum_eq

theorem reclaim_size_le (c : DiskCache) (pinned : List Identity) (need : Nat) :
    diskSize (c.reclaim pinned need) ≤ diskSize c := by
  simp only [DiskCache.reclaim, diskSize]
  exact (reclaimLoop_size_le c.budget need pinned _ 0).trans
    (le_of_eq (diskEntriesSize_perm (List.perm_insertionSort lruDiskLE c.entries)))

theorem reclaim_budget (c : DiskCache) (pinned : List Identity) (need : Nat) :
    (c.reclaim pinned need).budget = c.budget := rfl

theorem reclaimLoop_keeps_pinned (budget need : Nat) (pinned : List Identity) :
    ∀ (l : List DiskEntry) (k : Nat) (e : DiskEntry), e ∈ l →
      pinned.contains e.identity = true → e ∈ reclaimLoop budget need pinned k l := by
  intro l
  induction l with
  | nil => intro k e he; cases he
  | cons a es ih =>
    intro k e he hp
    by_cases h1 : k + diskEntriesSize (a :: es) + need ≤ budget
    · simpa [reclaimLoop, h1] using he
    · by_cases h2 : pinned.contains a.identity
      · simp only [reclaimLoop, if_neg h1, if_pos h2]
        rcases List.mem_cons.mp he with rfl | he2
        · exact List.mem_cons_self _ _
        · exact List.mem_cons_of_mem _ (ih (k + a.size) e he2 hp)
      · simp only [reclaimLoop, if_neg h1, if_neg h2]
        rcases List.mem_cons.mp he with rfl | he2
        · rw [hp] at h2; exact absurd rfl h2
        · exact ih k e he2 hp

/-- Reclamation never removes a DiskEntry whose identity is pinned by a
resident LoadedModel. -/
theorem reclaim_keeps_pinned (c : DiskCache) (pinned : List Identity) (need : Nat)
    (e : DiskEntry) (he : e ∈ c.entries) (hp : pinned.contains e.identity = true) :
    e ∈ (c.reclaim pinned need).entries := by
  simp only [DiskCache.reclaim]
  exact reclaimLoop_keeps_pinned c.budget need pinned _ 0 e
    ((List.mem_insertionSort lruDiskLE).mpr he) hp

theorem applyDiskOp_budget (c : DiskCache) (op : DiskOp) :
    (applyDiskOp c op).budget = c.budget := by
  cases op with
  | fetchOrGet id sz pinned =>
    simp only [applyDiskOp]
    by_cases h : diskHas c id
    · simp [h, diskTouch]
    · simp only [if_neg h]
      by_cases h2 : diskSize (c.reclaim pinned sz) + sz ≤ (c.reclaim pinned sz).budget
      · simp only [if_pos h2]
        simp [diskWrite, reclaim_budget]
      · simp only [if_neg h2]
        exact reclaim_budget c pinned sz
  | reclaimPressure need pinned => exact reclaim_budget c pinned need

theorem applyDiskOp_size (c : DiskCache) (op : DiskOp)
    (h : diskSize c ≤ c.budget) :
    diskSize (applyDiskOp c op) ≤ c.budget := by
  cases op with
  | fetchOrGet id sz pinned =>
    simp only [applyDiskOp]
    by_cases h1 : diskHas c id
    · simpa [h1, diskSize_touch] using h
    · simp only [if_neg h1]
      by_cases h2 : diskSize (c.reclaim pinned sz) + sz ≤ (c.reclaim pinned sz).budget
      · simp only [if_pos h2]
        rw [reclaim_budget] at h2
        simp only [diskWrite, diskSize, diskEntriesSize, List.map_cons, List.sum_cons]
        have hf : diskEntriesSize ((c.reclaim pinned sz).entries.filter
            (fun e => ¬ (e.identity == id))) ≤ diskSize (c.reclaim pinned sz) :=
          sumMap_filter_le _ _ _
        simp only [diskEntriesSize] at hf
        omega
      · simp only [if_neg h2]
        exact (reclaim_size_le c pinned sz).trans h
  | reclaimPressure need pinned => exact (reclaim_size_le c pinned need).trans h

theorem runDisk_budget (budget : Nat) (ops : List DiskOp) :
    (runDisk budget ops).budget = budget := by
  unfold runDisk
  induction ops using List.reverseRecOn with
  | nil => rfl
  | append_singleton ops op ih =>
    rw [List.foldl_append, List.foldl_cons, List.foldl_nil, applyDiskOp_budget]
    exact ih

theorem runDisk_size (budget : Nat) (ops : List DiskOp) :
    diskSize (runDisk budget ops) ≤ budget := by
  induction ops using List.reverseRecOn with
  | nil => simp [runDisk, emptyDisk, diskSize, diskEntriesSize]
  | append_singleton ops op ih =>
    have hb := runDisk_budget budget ops
    have := applyDiskOp_size (runDisk budget ops) op (by rw [hb]; exact ih)
    rw [hb] at this
    simpa [runDisk, List.foldl_append] using this

/-- C4: For every sequence of Disk Cache operations (fetchOrGet,
reclaim) starting from the empty cache, the aggregate occupied size is
at most the configured disk budget after each operation completes; and
every single operation preserves the budget invariant on any in-budget
cache, reclamation restoring it before a new DiskEntry is written. -/
theorem claim_C4 :
    (∀ (budget : Nat) (ops : List DiskOp), diskSize (runDisk budget ops) ≤ budget) ∧
    (∀ (c : DiskCache) (op : DiskOp), diskSize c ≤ c.budget →
      diskSize (applyDiskOp c op) ≤ c.budget) :=
  ⟨runDisk_size, fun c op h => applyDiskOp_size c op h⟩

/-- C4 witness: the disk invariant at a concrete operation sequence and
a concrete single operation. -/
theorem claim_C4_witness :
    diskSize (runDisk 5 [DiskOp.fetchOrGet "a" 3 [], DiskOp.fetchOrGet "b" 4 []]) ≤ 5 ∧
    diskSize (applyDiskOp (emptyDisk 5) (DiskOp.fetchOrGet "a" 3 [])) ≤ 5 :=
  ⟨claim_C4.1 5 _, claim_C4.2 (emptyDisk 5) (DiskOp.fetchOrGet "a" 3 []) (by decide)⟩

/-! ### Membership lemmas for pool and disk -/

theorem contains_iff_mem (l : List Identity) (x : Identity) :
    l.contains x = true ↔ x ∈ l := by
  simp [List.contains, List.elem_iff]

theorem poolHas_iff (p : MemoryPool) (x : Identity) :
    poolHas p x = true ↔ ∃ e ∈ p.entries, e.identity = x := by
  simp [poolHas, List.find?_isSome]

theorem diskHas_iff (c : DiskCache) (x : Identity) :
    diskHas c x = true ↔ ∃ e ∈ c.entries, e.identity = x := by
  simp [diskHas, diskLookup, List.find?_isSome]

theorem diskLookup_none_iff (c : DiskCache) (x : Identity) :
    diskLookup c x = none ↔ ∀ e ∈ c.entries, e.identity ≠ x := by
  simp [diskLookup, List.find?_eq_none]

theorem mem_touch_identity (p : MemoryPool) (id : Identity) :
    ∀ e ∈ (p.touch id).entries, ∃ a ∈ p.entries, e.identity = a.identity := by
  intro e he
  simp only [MemoryPool.touch, List.mem_map] at he
  obtain ⟨a, ha, rfl⟩ := he
  exact ⟨a, ha, by by_cases h : a.identity == id <;> simp [h]⟩

theorem mem_diskTouch_identity (c : DiskCache) (id : Identity) :
    ∀ e ∈ (diskTouch c id).entries, ∃ a ∈ c.entries, e.identity = a.identity := by
  intro e he
  simp only [diskTouch, List.mem_map] at he
  obtain ⟨a, ha, rfl⟩ := he
  exact ⟨a, ha, by by_cases h : a.identity == id <;> simp [h]⟩

theorem diskHas_touch (c : DiskCache) (id x : Identity) :
    diskHas (diskTouch c id) x = true ↔ diskHas c x = true := by
  rw [diskHas_iff, diskHas_iff]
  constructor
  · rintro ⟨e, he, hid⟩
    obtain ⟨a, ha, hid2⟩ := mem_diskTouch_identity c id e he
    exact ⟨a, ha, hid2 ▸ hid⟩
  · rintro ⟨a, ha, hid⟩
    refine ⟨if a.identity == id then { a with lastAccess := c.clock } else a,
      List.mem_map_of_mem _ ha, ?_⟩
    by_cases h : a.identity == id
    · simp only [if_pos h]
      exact hid
    · simp only [if_neg h]
      exact hid

theorem diskHas_write_self (c : DiskCache) (id : Identity) (sz : Nat) :
    diskHas (diskWrite c id sz) id = true := by
  rw [diskHas_iff]
  exact ⟨{ identity := id, size := sz, lastAccess := c.clock },
    List.mem_cons_self _ _, rfl⟩

theorem diskHas_write_of (c : DiskCache) (id : Identity) (sz : Nat) (x : Identity)
    (h : diskHas c x = true) : diskHas (diskWrite c id sz) x = true := by
  rw [diskHas_iff] at h ⊢
  obtain ⟨e, he, hid⟩ := h
  by_cases hx : x = id
  · exact ⟨{ identity := id, size := sz, lastAccess := c.clock },
      List.mem_cons_self _ _, hx.symm⟩
  · refine ⟨e, List.mem_cons_of_mem _ (List.mem_filter.mpr ⟨he, ?_⟩), hid⟩
    simp [hid, hx]

theorem mem_diskWrite_identity (c : DiskCache) (id : Identity) (sz : Nat) :
    ∀ e ∈ (diskWrite c id sz).entries, e.identity = id ∨ e ∈ c.entries := by
  intro e he
  rcases List.mem_cons.mp he with rfl | he2
  · exact Or.inl rfl
  · exact Or.inr (List.mem_of_mem_filter he2)

theorem reclaimLoop_subset (budget need : Nat) (pinned : List Identity) :
    ∀ (l : List DiskEntry) (k : Nat) (e : DiskEntry),
      e ∈ reclaimLoop budget need pinned k l → e ∈ l := by
  intro l
  induction l with
  | nil => intro k e he; simp [reclaimLoop] at he
  | cons a es ih =>
    intro k e he
    by_cases h1 : k + diskEntriesSize (a :: es) + need ≤ budget
    · simp only [reclaimLoop, if_pos h1] at he
      exact he
    · by_cases h2 : pinned.contains a.identity
      · simp only [reclaimLoop, if_neg h1, if_pos h2] at he
        rcases List.mem_cons.mp he with rfl | he2
        · exact List.mem_cons_self _ _
        · exact List.mem_cons_of_mem _ (ih (k + a.size) e he2)
      · simp only [reclaimLoop, if_neg h1, if_neg h2] at he
        exact List.mem_cons_of_mem _ (ih k e he)

theorem reclaim_subset (c : DiskCache) (pinned : List Identity) (need : Nat) :
    ∀ e ∈ (c.reclaim pinned need).entries, e ∈ c.entries := by
  intro e he
  exact (List.mem_insertionSort lruDiskLE).mp
    (reclaimLoop_subset c.budget need pinned _ 0 e he)

theorem diskHas_reclaim_pinned (c : DiskCache) (pinned : List Identity) (need : Nat)
    (x : Identity) (hx : x ∈ pinned) (h : diskHas c x = true) :
    diskHas (c.reclaim pinned need) x = true := by
  rw [diskHas_iff] at h ⊢
  obtain ⟨e, he, hid⟩ := h
  refine ⟨e, reclaim_keeps_pinned c pinned need e he ?_, hid⟩
  rw [hid]
  exact (contains_iff_mem pinned x).mpr hx

theorem admission_ok_mem (p : MemoryPool) (id : Identity) (fp : Nat)
    (p2 : MemoryPool) (ev : List Identity)
    (h : p.admission id fp = .ok p2 ev) :
    ∀ e ∈ p2.entries, e.identity = id ∨ e ∈ p.entries := by
  unfold MemoryPool.admission at h
  by_cases hb : p.budget < fp
  · simp [hb] at h
  · simp only [if_neg hb] at h
    cases h
    intro e he
    rcases List.mem_cons.mp he with rfl | he2
    · exact Or.inl rfl
    · right
      have h1 := evictLoop_mem_survivor p.budget fp _ e he2
      have h2 := (List.mem_insertionSort lruEntryLE).mp h1
      exact List.mem_of_mem_filter h2

theorem resident_mem_residentIds (p : MemoryPool) (e : PoolEntry) (he : e ∈ p.entries) :
    e.identity ∈ residentIds p :=
  List.mem_map_of_mem _ he

/-! ### Invariant preservation across the serving instance -/

theorem backedInv_loadIntoPool (s : ServeState) (id : Identity) (sz n : Nat)
    (h : backedInv s) (hid : diskHas s.disk id = true) :
    backedInv (loadIntoPool s id sz n).state := by
  unfold loadIntoPool
  cases ha : s.pool.admission id sz with
  | tooLarge => exact h
  | ok p2 ev =>
    intro e he
    rcases admission_ok_mem _ _ _ _ _ ha e he with h1 | h1
    · rw [h1]; exact hid
    · exact h e h1

theorem backedInv_handle (s : ServeState) (t : Identity) (h : backedInv s) :
    backedInv (handle s t).state := by
  unfold handle
  by_cases hp : poolHas s.pool t
  · simp only [if_pos hp]
    intro e he
    obtain ⟨a, ha, hid⟩ := mem_touch_identity s.pool t e he
    rw [hid]
    exact h a ha
  · simp only [if_neg hp]
    cases hd : diskLookup s.disk t with
    | some de =>
      apply backedInv_loadIntoPool
      · intro e he
        exact (diskHas_touch _ _ _).mpr (h e he)
      · exact (diskHas_touch _ _ _).mpr (by simp [diskHas, hd])
    | none =>
      cases hr : remoteLookup s.remote t with
      | none => exact h
      | some sz =>
        by_cases hf : diskSize (s.disk.reclaim (residentIds s.pool) sz) + sz ≤
            (s.disk.reclaim (residentIds s.pool) sz).budget
        · simp only [if_pos hf]
          apply backedInv_loadIntoPool
          · intro e he
            exact diskHas_write_of _ _ _ _
              (diskHas_reclaim_pinned _ _ _ _ (resident_mem_residentIds s.pool e he) (h e he))
          · exact diskHas_write_self _ _ _
        · simp only [if_neg hf]
          intro e he
          exact diskHas_reclaim_pinned _ _ _ _ (resident_mem_residentIds s.pool e he) (h e he)

theorem backedInv_apply (s : ServeState) (op : ServeOp) (h : backedInv s) :
    backedInv (applyServeOp s op) := by
  cases op with
  | request t => exact backedInv_handle s t h
  | manualEvict id =>
    intro e he
    exact h e (List.mem_of_mem_filter he)
  | storagePressure need =>
    intro e he
    exact diskHas_reclaim_pinned _ _ _ _ (resident_mem_residentIds s.pool e he) (h e he)

theorem backedInv_run (memBudget diskBudget : Nat) (remote : RemoteStore) (ops : List ServeOp) :
    backedInv (runServe memBudget diskBudget remote ops) := by
  induction ops using List.reverseRecOn with
  | nil => intro e he; cases he
  | append_singleton ops op ih =>
    have : runServe memBudget diskBudget remote (ops ++ [op]) =
        applyServeOp (runServe memBudget diskBudget remote ops) op := by
      simp [runServe, List.foldl_append]
    rw [this]
    exact backedInv_apply _ op ih

theorem diskFromRemote_loadIntoPool (s : ServeState) (id : Identity) (sz n : Nat)
    (h : diskFromRemote s) : diskFromRemote (loadIntoPool s id sz n).state := by
  unfold loadIntoPool
  cases s.pool.admission id sz with
  | tooLarge => exact h
  | ok p2 ev => exact h

theorem diskFromRemote_handle (s : ServeState) (t : Identity) (h : diskFromRemote s) :
    diskFromRemote (handle s t).state := by
  unfold handle
  by_cases hp : poolHas s.pool t
  · simp only [if_pos hp]
    exact h
  · simp only [if_neg hp]
    cases hd : diskLookup s.disk t with
    | some de =>
      apply diskFromRemote_loadIntoPool
      intro e he
      obtain ⟨a, ha, hid⟩ := mem_diskTouch_identity s.disk t e he
      rw [hid]
      exact h a ha
    | none =>
      cases hr : remoteLookup s.remote t with
      | none => exact h
      | some sz =>
        by_cases hf : diskSize (s.disk.reclaim (residentIds s.pool) sz) + sz ≤
            (s.disk.reclaim (residentIds s.pool) sz).budget
        · simp only [if_pos hf]
          apply diskFromRemote_loadIntoPool
          intro e he
          rcases mem_diskWrite_identity _ _ _ e he with h1 | h1
          · rw [h1]; exact ⟨sz, hr⟩
          · exact h e (reclaim_subset _ _ _ e h1)
        · simp only [if_neg hf]
          intro e he
          exact h e (reclaim_subset _ _ _ e he)

theorem diskFromRemote_apply (s : ServeState) (op : ServeOp) (h : diskFromRemote s) :
    diskFromRemote (applyServeOp s op) := by
  cases op with
  | request t => exact diskFromRemote_handle s t h
  | manualEvict id => exact h
  | storagePressure need =>
    intro e he
    exact h e (reclaim_subset _ _ _ e he)

theorem diskFromRemote_run (memBudget diskBudget : Nat) (remote : RemoteStore)
    (ops : List ServeOp) : diskFromRemote (runServe memBudget diskBudget remote ops) := by
  induction ops using List.reverseRecOn with
  | nil => intro e he; cases he
  | append_singleton ops op ih =>
    have : runServe memBudget diskBudget remote (ops ++ [op]) =
        applyServeOp (runServe memBudget diskBudget remote ops) op := by
      simp [runServe, List.foldl_append]
    rw [this]
    exact diskFromRemote_apply _ op ih

theorem loadIntoPool_remote (s : ServeState) (id : Identity) (sz n : Nat) :
    (loadIntoPool s id sz n).state.remote = s.remote := by
  unfold loadIntoPool
  cases s.pool.admission id sz <;> rfl

theorem handle_remote (s : ServeState) (t : Identity) :
    (handle s t).state.remote = s.remote := by
  unfold handle
  by_cases hp : poolHas s.pool t
  · simp only [if_pos hp]
  · simp only [if_neg hp]
    cases diskLookup s.disk t with
    | some de => exact loadIntoPool_remote _ _ _ _
    | none =>
      cases remoteLookup s.remote t with
      | none => rfl
      | some sz =>
        by_cases hf : diskSize (s.disk.reclaim (residentIds s.pool) sz) + sz ≤
            (s.disk.reclaim (residentIds s.pool) sz).budget
        · simp only [if_pos hf]
          exact loadIntoPool_remote _ _ _ _
        · simp only [if_neg hf]

theorem applyServeOp_remote (s : ServeState) (op : ServeOp) :
    (applyServeOp s op).remote = s.remote := by
  cases op with
  | request t => exact handle_remote s t
  | manualEvict id => rfl
  | storagePressure need => rfl

theorem runServe_remote (memBudget diskBudget : Nat) (remote : RemoteStore)
    (ops : List ServeOp) : (runServe memBudget diskBudget remote ops).remote = remote := by
  induction ops using List.reverseRecOn with
  | nil => rfl
  | append_singleton ops op ih =>
    have : runServe memBudget diskBudget remote (ops ++ [op]) =
        applyServeOp (runServe memBudget diskBudget remote ops) op := by
      simp [runServe, List.foldl_append]
    rw [this]
    rw [applyServeOp_remote]
    exact ih

/-! ### Reductions of handle on each dispatch path -/

theorem handle_notFound (s : ServeState) (z : Identity)
    (hp : poolHas s.pool z = false) (hd : diskLookup s.disk z = none)
    (hr : remoteLookup s.remote z = none) :
    handle s z = ⟨s, .failed .modelNotFound, 1⟩ := by
  unfold handle
  simp only [hp, hd, hr, Bool.false_eq_true, if_false]

theorem handle_disk_hit (s : ServeState) (t : Identity) (de : DiskEntry)
    (hp : poolHas s.pool t = false) (hd : diskLookup s.disk t = some de) :
    handle s t = loadIntoPool { s with disk := diskTouch s.disk t } t de.size 0 := by
  unfold handle
  simp only [hp, hd, Bool.false_eq_true, if_false]

theorem handle_full_miss (s : ServeState) (t : Identity) (sz : Nat)
    (hp : poolHas s.pool t = false) (hd : diskLookup s.disk t = none)
    (hr : remoteLookup s.remote t = some sz)
    (hf : diskSize (s.disk.reclaim (residentIds s.pool) sz) + sz ≤
      (s.disk.reclaim (residentIds s.pool) sz).budget) :
    handle s t = loadIntoPool
      { s with disk := diskWrite (s.disk.reclaim (residentIds s.pool) sz) t sz } t sz 1 := by
  unfold handle
  simp only [hp, hd, hr, Bool.false_eq_true, if_false, if_pos hf]

theorem poolHas_evict_self (p : MemoryPool) (id : Identity) :
    poolHas (p.evict id) id = false := by
  rw [Bool.eq_false_iff]
  intro hcon
  obtain ⟨e, he, hid⟩ := (poolHas_iff _ _).mp hcon
  have he2 : e ∈ p.entries.filter (fun e => ¬ (e.identity == id)) := he
  have h2 := (List.mem_filter.mp he2).2
  simp [hid] at h2

theorem admission_resident (p : MemoryPool) (id : Identity) (fp : Nat)
    (h : ¬ p.budget < fp) :
    ∃ p2 ev, p.admission id fp = .ok p2 ev ∧ poolHas p2 id = true := by
  unfold MemoryPool.admission
  rw [if_neg h]
  refine ⟨_, _, rfl, ?_⟩
  simp [poolHas, List.find?_cons_of_pos]

theorem loadIntoPool_success (s : ServeState) (id : Identity) (sz n : Nat)
    (h : ¬ s.pool.budget < sz) :
    (loadIntoPool s id sz n).remoteFetches = n ∧
    (loadIntoPool s id sz n).response = Response.executed id ∧
    poolHas (loadIntoPool s id sz n).state.pool id = true := by
  obtain ⟨p2, ev, hadm, hres⟩ := admission_resident s.pool id sz h
  unfold loadIntoPool
  rw [hadm]
  exact ⟨rfl, rfl, hres⟩

theorem admission_tooLarge (p : MemoryPool) (id : Identity) (fp : Nat)
    (h : p.budget < fp) : p.admission id fp = AdmitResult.tooLarge := by
  unfold MemoryPool.admission
  rw [if_pos h]

theorem loadIntoPool_tooLarge (s : ServeState) (id : Identity) (sz n : Nat)
    (h : s.pool.budget < sz) :
    loadIntoPool s id sz n = ⟨s, .failed .modelTooLarge, n⟩ := by
  unfold loadIntoPool
  rw [admission_tooLarge s.pool id sz h]

/-- C2: Admission evicts entries in least-recently-used order with ties
broken by the lexically smaller identity (every evicted entry precedes
every survivor in that order), evicts only while the budget is still
exceeded and stops as soon as the invariant holds or the pool is empty;
concretely, with budget 2 and residents a then b, requesting c evicts
exactly the least-recently-used of a and b, leaves the pool at size 2
with b and c resident, and keeps a's disk entry intact. -/
theorem claim_C2 :
    (∀ (budget fp : Nat) (l : List PoolEntry), List.Sorted lruEntryLE l →
      ∀ e ∈ (evictLoop budget fp l).1, ∀ s ∈ (evictLoop budget fp l).2, lruEntryLE e s) ∧
    (∀ (budget fp : Nat) (l : List PoolEntry),
      entriesSize (evictLoop budget fp l).2 + fp ≤ budget ∨ (evictLoop budget fp l).2 = []) ∧
    (∀ (budget fp : Nat) (l : List PoolEntry) (j : Nat), j < (evictLoop budget fp l).1.length →
      budget < entriesSize (l.drop j) + fp) ∧
    ((runServe 2 100 [("a", 1), ("b", 1), ("c", 1)]
        [ServeOp.request "a", ServeOp.request "b", ServeOp.request "c"]).pool.entries.map
        (·.identity) = ["c", "b"] ∧
      poolSize (runServe 2 100 [("a", 1), ("b", 1), ("c", 1)]
        [ServeOp.request "a", ServeOp.request "b", ServeOp.request "c"]).pool = 2 ∧
      diskHas (runServe 2 100 [("a", 1), ("b", 1), ("c", 1)]
        [ServeOp.request "a", ServeOp.request "b", ServeOp.request "c"]).disk "a" = true) :=
  ⟨fun budget fp l hs => evictLoop_order budget fp l hs,
   fun budget fp l => evictLoop_post budget fp l,
   fun budget fp l => evictLoop_minimal budget fp l,
   by decide, by decide, by decide⟩

/-- C2 witness: the eviction-order and stop-early statements applied at
a concrete sorted pool. -/
theorem claim_C2_witness :
    lruEntryLE { identity := "a", footprint := 1, lastAccess := 0 }
      { identity := "b", footprint := 1, lastAccess := 1 } ∧
    2 < entriesSize (([{ identity := "a", footprint := 1, lastAccess := 0 },
      { identity := "b", footprint := 1, lastAccess := 1 }] : List PoolEntry).drop 0) + 1 :=
  ⟨claim_C2.1 2 1
      [{ identity := "a", footprint := 1, lastAccess := 0 },
       { identity := "b", footprint := 1, lastAccess := 1 }] (by decide)
      { identity := "a", footprint := 1, lastAccess := 0 } (by decide)
      { identity := "b", footprint := 1, lastAccess := 1 } (by decide),
   claim_C2.2.2.1 2 1
      [{ identity := "a", footprint := 1, lastAccess := 0 },
       { identity := "b", footprint := 1, lastAccess := 1 }] 0 (by decide)⟩

/-- C3: An identity whose footprint alone exceeds the memory budget is
rejected by admit with the "model too large" error; on both the
disk-hit path and the full-miss path the Dispatcher then surfaces
ModelTooLarge, leaves the Memory Pool unchanged (nothing is evicted to
make room), and retains the identity's DiskEntry on disk. -/
theorem claim_C3 :
    (∀ (p : MemoryPool) (id : Identity) (fp : Nat), p.budget < fp →
      p.admission id fp = AdmitResult.tooLarge) ∧
    (∀ (s : ServeState) (t : Identity) (de : DiskEntry),
      poolHas s.pool t = false → diskLookup s.disk t = some de → s.pool.budget < de.size →
      (handle s t).response = Response.failed ServeError.modelTooLarge ∧
      (handle s t).state.pool = s.pool ∧
      diskHas (handle s t).state.disk t = true) ∧
    (∀ (s : ServeState) (t : Identity) (sz : Nat),
      poolHas s.pool t = false → diskLookup s.disk t = none →
      remoteLookup s.remote t = some sz → s.pool.budget < sz →
      diskSize (s.disk.reclaim (residentIds s.pool) sz) + sz ≤
        (s.disk.reclaim (residentIds s.pool) sz).budget →
      (handle s t).response = Response.failed ServeError.modelTooLarge ∧
      (handle s t).state.pool = s.pool ∧
      diskHas (handle s t).state.disk t = true) := by
  refine ⟨admission_tooLarge, ?_, ?_⟩
  · intro s t de hp hd hsz
    rw [handle_disk_hit s t de hp hd]
    rw [loadIntoPool_tooLarge { s with disk := diskTouch s.disk t } t de.size 0 hsz]
    exact ⟨rfl, rfl, (diskHas_touch _ _ _).mpr (by simp [diskHas, hd])⟩
  · intro s t sz hp hd hr hsz hf
    rw [handle_full_miss s t sz hp hd hr hf]
    rw [loadIntoPool_tooLarge
      { s with disk := diskWrite (s.disk.reclaim (residentIds s.pool) sz) t sz } t sz 1 hsz]
    exact ⟨rfl, rfl, diskHas_write_self _ _ _⟩

/-- C3 witness: the three too-large conclusions at concrete states. -/
theorem claim_C3_witness :
    (emptyPool 1).admission "a" 5 = AdmitResult.tooLarge ∧
    ((handle stateDiskHitA "a").response = Response.failed ServeError.modelTooLarge ∧
      (handle stateDiskHitA "a").state.pool = emptyPool 1 ∧
      diskHas (handle stateDiskHitA "a").state.disk "a" = true) ∧
    ((handle stateFullMissA "a").response = Response.failed ServeError.modelTooLarge ∧
      (handle stateFullMissA "a").state.pool = emptyPool 1 ∧
      diskHas (handle stateFullMissA "a").state.disk "a" = true) :=
  ⟨claim_C3.1 (emptyPool 1) "a" 5 (by decide),
   claim_C3.2.1 stateDiskHitA "a" { identity := "a", size := 5, lastAccess := 0 }
     (by decide) (by decide) (by decide),
   claim_C3.2.2 stateFullMissA "a" 5
     (by decide) (by decide) (by decide) (by decide) (by decide)⟩

/-- C5: In every state reachable by any sequence of serving-instance
operations, every resident LoadedModel has a DiskEntry for its identity
in the Local Disk Cache; and reclaim never removes a DiskEntry whose
identity is pinned by a resident LoadedModel, even interleaved with
admissions (every operation, requests included, preserves the
invariant). -/
theorem claim_C5 :
    (∀ (memBudget diskBudget : Nat) (remote : RemoteStore) (ops : List ServeOp),
      backedInv (runServe memBudget diskBudget remote ops)) ∧
    (∀ (s : ServeState) (op : ServeOp), backedInv s → backedInv (applyServeOp s op)) ∧
    (∀ (c : DiskCache) (pinned : List Identity) (need : Nat) (e : DiskEntry),
      e ∈ c.entries → e.identity ∈ pinned → e ∈ (c.reclaim pinned need).entries) :=
  ⟨backedInv_run, backedInv_apply,
   fun c pinned need e he hp =>
    reclaim_keeps_pinned c pinned need e he ((contains_iff_mem pinned e.identity).mpr hp)⟩

/-- C5 witness: the backing invariant and pinned-entry preservation at
concrete states. -/
theorem claim_C5_witness :
    diskHas (runServe 2 10 [("a", 1)] [ServeOp.request "a"]).disk
      ({ identity := "a", footprint := 1, lastAccess := 0 } : PoolEntry).identity = true ∧
    ({ identity := "a", size := 1, lastAccess := 0 } : DiskEntry) ∈
      (diskA1.reclaim ["a"] 100).entries :=
  ⟨claim_C5.1 2 10 [("a", 1)] [ServeOp.request "a"]
      { identity := "a", footprint := 1, lastAccess := 0 } (by decide),
   claim_C5.2.2 diskA1 ["a"] 100 { identity := "a", size := 1, lastAccess := 0 }
      (by decide) (by decide)⟩

/-- C6: After identity x is evicted from the Memory Pool while its
DiskEntry remains, a subsequent request for x is served by loading from
the Local Disk Cache — zero Remote Store fetches — executes x, and makes
x resident again. -/
theorem claim_C6 (s : ServeState) (x : Identity) (de : DiskEntry)
    (hd : diskLookup s.disk x = some de) (hsz : ¬ s.pool.budget < de.size) :
    (handle { s with pool := s.pool.evict x } x).remoteFetches = 0 ∧
    (handle { s with pool := s.pool.evict x } x).response = Response.executed x ∧
    poolHas (handle { s with pool := s.pool.evict x } x).state.pool x = true := by
  have hp : poolHas (ServeState.pool { s with pool := s.pool.evict x }) x = false :=
    poolHas_evict_self s.pool x
  have hd2 : diskLookup (ServeState.disk { s with pool := s.pool.evict x }) x = some de := hd
  rw [handle_disk_hit _ x de hp hd2]
  exact loadIntoPool_success _ x de.size 0 hsz

/-- C6 witness: disk-backed recovery at a concrete state. -/
theorem claim_C6_witness :
    (handle { stateRecoveryA with pool := stateRecoveryA.pool.evict "a" } "a").remoteFetches
      = 0 ∧
    (handle { stateRecoveryA with pool := stateRecoveryA.pool.evict "a" } "a").response
      = Response.executed "a" ∧
    poolHas (handle { stateRecoveryA with
      pool := stateRecoveryA.pool.evict "a" } "a").state.pool "a" = true :=
  claim_C6 stateRecoveryA "a" { identity := "a", size := 1, lastAccess := 0 }
    (by decide) (by decide)

/-- C7: A request for an identity absent from the Remote Store, made in
any reachable serving state, fails with ModelNotFound after exactly one
fetch attempt (no retry) and leaves the Memory Pool and the Local Disk
Cache — the whole state — exactly unchanged. -/
theorem claim_C7 (memBudget diskBudget : Nat) (remote : RemoteStore) (ops : List ServeOp)
    (z : Identity) (hz : remoteLookup remote z = none) :
    handle (runServe memBudget diskBudget remote ops) z =
      ⟨runServe memBudget diskBudget remote ops,
        Response.failed ServeError.modelNotFound, 1⟩ := by
  have hrem : (runServe memBudget diskBudget remote ops).remote = remote :=
    runServe_remote memBudget diskBudget remote ops
  have hd : diskLookup (runServe memBudget diskBudget remote ops).disk z = none := by
    rw [diskLookup_none_iff]
    intro e he heq
    obtain ⟨sz, hsz⟩ := diskFromRemote_run memBudget diskBudget remote ops e he
    rw [heq, hrem, hz] at hsz
    exact Option.noConfusion hsz
  have hp : poolHas (runServe memBudget diskBudget remote ops).pool z = false := by
    rw [Bool.eq_false_iff]
    intro hcon
    obtain ⟨e, he, heq⟩ := (poolHas_iff _ _).mp hcon
    have hb := backedInv_run memBudget diskBudget remote ops e he
    rw [heq] at hb
    simp [diskHas, hd] at hb
  exact handle_notFound _ z hp hd (by rw [hrem]; exact hz)

/-- C7 witness: an unknown identity z at a concrete reachable state. -/
theorem claim_C7_witness :
    handle (runServe 2 10 [("a", 1)] [ServeOp.request "a"]) "z" =
      ⟨runServe 2 10 [("a", 1)] [ServeOp.request "a"],
        Response.failed ServeError.modelNotFound, 1⟩ :=
  claim_C7 2 10 [("a", 1)] [ServeOp.request "a"] "z" (by decide)

theorem arrive_first (st : FetchState) (x : Identity)
    (hdisk : st.disk.contains x = false) (hflight : st.inFlight.contains x = false) :
    arrive st x = { disk := st.disk, inFlight := x :: st.inFlight,
                    fetchesIssued := st.fetchesIssued + 1 } := by
  unfold arrive
  rw [hdisk, hflight]
  simp

theorem arrivals_eq_first (st : FetchState) (x : Identity)
    (hdisk : st.disk.contains x = false) (hflight : st.inFlight.contains x = false) :
    ∀ n, 1 ≤ n → arrivals x st n = arrive st x := by
  intro n
  induction n with
  | zero => intro hn; cases hn
  | succ n ih =>
    intro _
    match n, ih with
    | 0, _ => rfl
    | n + 1, ih =>
      show arrive (arrivals x st (n + 1)) x = arrive st x
      rw [ih (Nat.succ_le_succ (Nat.zero_le n))]
      rw [arrive_first st x hdisk hflight]
      unfold arrive
      rw [hdisk]
      simp

/-- C8: Any number n ≥ 1 of concurrent requests for the same identity
missing from the Local Disk Cache issue exactly one Remote Store fetch
between them: the first arrival issues it and every later arrival finds
it in flight and waits on it. -/
theorem claim_C8 (st : FetchState) (x : Identity) (n : Nat) (hn : 1 ≤ n)
    (hdisk : st.disk.contains x = false) (hflight : st.inFlight.contains x = false) :
    (arrivals x st n).fetchesIssued = st.fetchesIssued + 1 ∧
    (arrivals x st n).inFlight.contains x = true := by
  rw [arrivals_eq_first st x hdisk hflight n hn, arrive_first st x hdisk hflight]
  constructor
  · rfl
  · simp

/-- C8 witness: five concurrent arrivals for a missing identity issue
exactly one fetch. -/
theorem claim_C8_witness :
    (arrivals "a" { disk := ["b"], inFlight := [], fetchesIssued := 0 } 5).fetchesIssued
      = 0 + 1 ∧
    (arrivals "a" { disk := ["b"], inFlight := [], fetchesIssued := 0 } 5).inFlight.contains
      "a" = true :=
  claim_C8 { disk := ["b"], inFlight := [], fetchesIssued := 0 } "a" 5
    (by decide) (by decide) (by decide)

/-- C9: No serving-path operation sequence ever changes the Remote
Store — nothing is deleted and no identity's bytes are mutated — and
publishing a new version uses a fresh version-suffixed identity, which
is never equal to the original artifact's name (concretely,
"bertmodel_v2.tar.gz" versus "bertmodel.tar.gz"). -/
theorem claim_C9 :
    (∀ (memBudget diskBudget : Nat) (remote : RemoteStore) (ops : List ServeOp),
      (runServe memBudget diskBudget remote ops).remote = remote) ∧
    (∀ base v : String, (versionedArtifactName base v == baseArtifactName base) = false) ∧
    versionedArtifactName "bertmodel" "2" = "bertmodel_v2.tar.gz" := by
  refine ⟨runServe_remote, ?_, by decide⟩
  intro base v
  rw [Bool.eq_false_iff]
  intro hcon
  have h : versionedArtifactName base v = baseArtifactName base := beq_iff_eq.mp hcon
  have h2 := congrArg String.length h
  simp only [versionedArtifactName, baseArtifactName, String.length_append] at h2
  have e1 : ("_v" : String).length = 2 := by decide
  have e2 : (".tar.gz" : String).length = 7 := by decide
  rw [e1, e2] at h2
  omega

/-- C10: For every value of deployment_name, the teardown cell deletes
exactly the resources the setup cell creates: the names passed to
delete_model, delete_endpoint_config and delete_endpoint equal the names
passed to create_model, create_endpoint_config and create_endpoint. -/
theorem claim_C10 :
    ∀ deployment_name : String,
      deleteModelName deployment_name = createModelName deployment_name ∧
      deleteEndpointConfigName deployment_name = createEndpointConfigName deployment_name ∧
      deleteEndpointName deployment_name = createEndpointName deployment_name :=
  fun _ => ⟨rfl, rfl, rfl⟩
